import Mathlib

/-!
Verification of the `discrete-sim` discrete-event simulation kernel as
documented in this repository.  The repository ships documentation only, so
every definition below is a shallow model reconstructed from the documented
behaviour (`src/docs/api/*.md`, `src/docs/guide/*.md`, the unnamed guide
pages) and the specification; each doc comment records the place it was
modelled from.
-/

namespace DiscreteSim

/-- Modelled from the spec: a `ScheduledEvent` record
`{time, priority, sequence}` (spec §3; `src/unnamed/part_002`,
"Event Trace Structure").  The callback payload is not represented: the
kernel model replays pure event records and the resource primitives are
modelled as separate state machines.  Time is modelled as `ℚ`
(the docs use JavaScript numbers). -/
structure Event where
  time : ℚ
  priority : ℤ
  seq : ℕ
deriving DecidableEq, Repr

/-- Modelled from the spec: the ordering key of the event queue is the
tuple `(time, priority, sequence)`, compared lexicographically
(spec §3, §4.1; `src/docs/api/simulation.md` "Events are processed in
chronological order / in scheduling order").  `eventLE a b` means `a`
dispatches no later than `b`. -/
def eventLE (a b : Event) : Prop :=
  a.time < b.time ∨
    (a.time = b.time ∧
      (a.priority < b.priority ∨
        (a.priority = b.priority ∧ a.seq ≤ b.seq)))

/-- Strict version of `eventLE`: `a` dispatches strictly before `b`. -/
def eventLT (a b : Event) : Prop :=
  a.time < b.time ∨
    (a.time = b.time ∧
      (a.priority < b.priority ∨
        (a.priority = b.priority ∧ a.seq < b.seq)))

instance : DecidableRel eventLE := by
  intro a b
  unfold eventLE
  infer_instance

instance : DecidableRel eventLT := by
  intro a b
  unfold eventLT
  infer_instance

theorem eventLE_refl (a : Event) : eventLE a a := by
  simp [eventLE]

theorem eventLE_total (a b : Event) : eventLE a b ∨ eventLE b a := by
  unfold eventLE
  rcases lt_trichotomy a.time b.time with h | h | h
  · exact Or.inl (Or.inl h)
  · rcases lt_trichotomy a.priority b.priority with hp | hp | hp
    · exact Or.inl (Or.inr ⟨h, Or.inl hp⟩)
    · rcases Nat.le_total a.seq b.seq with hs | hs
      · exact Or.inl (Or.inr ⟨h, Or.inr ⟨hp, hs⟩⟩)
      · exact Or.inr (Or.inr ⟨h.symm, Or.inr ⟨hp.symm, hs⟩⟩)
    · exact Or.inr (Or.inr ⟨h.symm, Or.inl hp⟩)
  · exact Or.inr (Or.inl h)

theorem eventLE_trans {a b c : Event} (hab : eventLE a b) (hbc : eventLE b c) :
    eventLE a c := by
  unfold eventLE at *
  rcases hab with h1 | ⟨ht1, h1⟩
  · rcases hbc with h2 | ⟨ht2, _⟩
    · exact Or.inl (h1.trans h2)
    · exact Or.inl (ht2 ▸ h1)
  · rcases hbc with h2 | ⟨ht2, h2⟩
    · exact Or.inl (ht1 ▸ h2)
    · refine Or.inr ⟨ht1.trans ht2, ?_⟩
      rcases h1 with hp1 | ⟨hp1, hs1⟩
      · rcases h2 with hp2 | ⟨hp2, _⟩
        · exact Or.inl (hp1.trans hp2)
        · exact Or.inl (hp2 ▸ hp1)
      · rcases h2 with hp2 | ⟨hp2, hs2⟩
        · exact Or.inl (hp1 ▸ hp2)
        · exact Or.inr ⟨hp1.trans hp2, hs1.trans hs2⟩

theorem eventLE_antisymm {a b : Event} (hab : eventLE a b) (hba : eventLE b a) :
    a = b := by
  unfold eventLE at *
  rcases hab with h1 | ⟨ht1, h1⟩
  · rcases hba with h2 | ⟨ht2, _⟩
    · exact absurd (h1.trans h2) (lt_irrefl _)
    · exact absurd h1 (ht2 ▸ lt_irrefl _)
  · rcases hba with h2 | ⟨ht2, h2⟩
    · exact absurd h2 (ht1 ▸ lt_irrefl _)
    · rcases h1 with hp1 | ⟨hp1, hs1⟩
      · rcases h2 with hp2 | ⟨hp2, _⟩
        · exact absurd (hp1.trans hp2) (lt_irrefl _)
        · exact absurd hp1 (hp2 ▸ lt_irrefl _)
      · rcases h2 with hp2 | ⟨hp2, hs2⟩
        · exact absurd hp2 (hp1 ▸ lt_irrefl _)
        · have hseq : a.seq = b.seq := Nat.le_antisymm hs1 hs2
          cases a; cases b
          simp_all

theorem eventLT_of_eventLE_ne {a b : Event} (hab : eventLE a b) (hne : a ≠ b) :
    eventLT a b := by
  unfold eventLE at hab
  unfold eventLT
  rcases hab with h | ⟨ht, h⟩
  · exact Or.inl h
  · rcases h with hp | ⟨hp, hs⟩
    · exact Or.inr ⟨ht, Or.inl hp⟩
    · refine Or.inr ⟨ht, Or.inr ⟨hp, ?_⟩⟩
      rcases Nat.lt_or_ge a.seq b.seq with hlt | hge
      · exact hlt
      · exfalso
        apply hne
        have hseq : a.seq = b.seq := Nat.le_antisymm hs hge
        cases a; cases b
        simp_all

theorem not_eventLE_of_eventLT {a b : Event} (h : eventLT a b) : ¬ eventLE b a := by
  intro hba
  have hab : eventLE a b := by
    unfold eventLT at h
    unfold eventLE
    rcases h with h | ⟨ht, h⟩
    · exact Or.inl h
    · rcases h with hp | ⟨hp, hs⟩
      · exact Or.inr ⟨ht, Or.inl hp⟩
      · exact Or.inr ⟨ht, Or.inr ⟨hp, Nat.le_of_lt hs⟩⟩
  have := eventLE_antisymm hab hba
  subst this
  unfold eventLT at h
  rcases h with h | ⟨_, h⟩
  · exact lt_irrefl _ h
  · rcases h with h | ⟨_, h⟩
    · exact lt_irrefl _ h
    · exact lt_irrefl _ h

theorem eventLT_ne {a b : Event} (h : eventLT a b) : a ≠ b := by
  intro he
  subst he
  rcases h with h | ⟨_, h⟩
  · exact lt_irrefl _ h
  · rcases h with h | ⟨_, h⟩
    · exact lt_irrefl _ h
    · exact lt_irrefl _ h

/-- Modelled from the spec: the pop operation of the event queue returns
the globally minimal `(time, priority, sequence)` entry
(spec §4.1 "Pop operation returns the globally minimal
`(time, priority, sequence)` entry").  On an empty queue it returns
`none`; otherwise the minimal event together with the rest of the queue,
which keeps its relative order. -/
def popMin : List Event → Option (Event × List Event)
  | [] => none
  | e :: es =>
    match popMin es with
    | none => some (e, [])
    | some (m, rest) =>
      if eventLE e m then some (e, es) else some (m, e :: rest)

theorem popMin_eq_none {q : List Event} : popMin q = none ↔ q = [] := by
  cases q with
  | nil => simp [popMin]
  | cons e es =>
    simp only [popMin]
    cases h : popMin es with
    | none => simp
    | some p =>
      by_cases hle : eventLE e p.1 <;> simp [hle]

/-- `popMin` splits the queue around the returned minimum, preserving the
relative order of the remaining events. -/
theorem popMin_split {q : List Event} {e : Event} {rest : List Event}
    (h : popMin q = some (e, rest)) :
    ∃ l1 l2, q = l1 ++ e :: l2 ∧ rest = l1 ++ l2 := by
  induction q generalizing e rest with
  | nil => simp [popMin] at h
  | cons a as ih =>
    simp only [popMin] at h
    cases hm : popMin as with
    | none =>
      rw [hm] at h
      have : as = [] := popMin_eq_none.mp hm
      subst this
      simp at h
      exact ⟨[], [], by simp [h.1], by simp [h.2]⟩
    | some p =>
      obtain ⟨m, r⟩ := p
      rw [hm] at h
      by_cases hle : eventLE a m
      · simp [hle] at h
        exact ⟨[], as, by simp [h.1], by simp [h.2]⟩
      · simp [hle] at h
        obtain ⟨l1, l2, hq, hr⟩ := ih hm
        refine ⟨a :: l1, l2, ?_, ?_⟩
        · simp [hq, ← h.1]
        · simp [← h.2, hr]

theorem popMin_perm {q : List Event} {e : Event} {rest : List Event}
    (h : popMin q = some (e, rest)) : q.Perm (e :: rest) := by
  obtain ⟨l1, l2, hq, hr⟩ := popMin_split h
  subst hq; subst hr
  exact List.perm_middle

theorem popMin_length {q : List Event} {e : Event} {rest : List Event}
    (h : popMin q = some (e, rest)) : rest.length + 1 = q.length := by
  have := (popMin_perm h).length_eq
  simp at this
  omega

theorem popMin_min {q : List Event} {e : Event} {rest : List Event}
    (h : popMin q = some (e, rest)) : ∀ x ∈ q, eventLE e x := by
  induction q generalizing e rest with
  | nil => simp [popMin] at h
  | cons a as ih =>
    simp only [popMin] at h
    cases hm : popMin as with
    | none =>
      rw [hm] at h
      simp at h
      intro x hx
      have : as = [] := popMin_eq_none.mp hm
      subst this
      simp at hx
      subst hx
      exact h.1 ▸ eventLE_refl x
    | some p =>
      obtain ⟨m, r⟩ := p
      rw [hm] at h
      by_cases hle : eventLE a m
      · simp [hle] at h
        intro x hx
        rcases List.mem_cons.mp hx with hx | hx
        · exact h.1 ▸ hx ▸ eventLE_refl a
        · have hmin := ih hm
          exact h.1 ▸ eventLE_trans hle (hmin x hx)
      · simp [hle] at h
        intro x hx
        have hmin := ih hm
        rcases List.mem_cons.mp hx with hx | hx
        · rcases eventLE_total a m with hc | hc
          · exact absurd hc hle
          · exact h.1 ▸ hx ▸ hc
        · exact h.1 ▸ hmin x hx

/-- Modelled from the spec: the run loop with no bound repeatedly pops the
globally minimal event until the queue is empty (spec §4.1 "run() with no
bound drains the queue to empty"; `src/docs/api/simulation.md` "Without
until: Runs until event queue is empty").  Returns the dispatch order. -/
def drainAll (q : List Event) : List Event :=
  match h : popMin q with
  | none => []
  | some (e, rest) => e :: drainAll rest
termination_by q.length
decreasing_by
  have := popMin_length h
  omega

theorem drainAll_perm (q : List Event) : (drainAll q).Perm q := by
  induction q using drainAll.induct with
  | case1 q h =>
    rw [drainAll, h]
    rw [popMin_eq_none.mp h]
  | case2 q e rest h ih =>
    rw [drainAll, h]
    exact (List.Perm.cons e ih).trans (popMin_perm h).symm

theorem mem_of_popMin_rest {q : List Event} {e x : Event} {rest : List Event}
    (h : popMin q = some (e, rest)) (hx : x ∈ rest) : x ∈ q := by
  obtain ⟨l1, l2, hq, hr⟩ := popMin_split h
  subst hq; subst hr
  rcases List.mem_append.mp hx with hx | hx
  · exact List.mem_append.mpr (Or.inl hx)
  · exact List.mem_append.mpr (Or.inr (List.mem_cons_of_mem _ hx))

theorem drainAll_sorted (q : List Event) : (drainAll q).Sorted eventLE := by
  induction q using drainAll.induct with
  | case1 q h =>
    rw [drainAll, h]
    exact List.sorted_nil
  | case2 q e rest h ih =>
    rw [drainAll, h]
    refine List.sorted_cons.mpr ⟨?_, ih⟩
    intro b hb
    have hbq : b ∈ rest := ((drainAll_perm rest).mem_iff).mp hb
    exact popMin_min h b (mem_of_popMin_rest h hbq)

/-- Modelled from the spec: `run(until)` pops and executes all events with
`time ≤ until` and leaves later events queued (spec §4.1;
`src/docs/api/simulation.md` "With until: Stops at specified time (may
leave events unprocessed)").  Returns the pair
(remaining queue, dispatched trace). -/
def runUntilCore (u : ℚ) (q : List Event) : List Event × List Event :=
  match h : popMin q with
  | none => ([], [])
  | some (e, rest) =>
    if e.time ≤ u then
      ((runUntilCore u rest).1, e :: (runUntilCore u rest).2)
    else (q, [])
termination_by q.length
decreasing_by
  all_goals
    have := popMin_length h
    omega

/-- Modelled from the spec: the scheduler state — the clock `now`, the
insertion-sequence counter, the pending queue and the dispatch trace
(spec §2, §3; `src/unnamed/part_002` "Event Trace Structure"). -/
structure SimState where
  now : ℚ
  nextSeq : ℕ
  queue : List Event
  trace : List Event
deriving DecidableEq, Repr

/-- Modelled from the spec: `run(until)` executes all queued events with
`time ≤ until`, then sets `now = until` and returns, leaving later events
queued for a subsequent `run` call (spec §4.1, §4.4 scenario). -/
def runUntil (u : ℚ) (s : SimState) : SimState :=
  ⟨u, s.nextSeq, (runUntilCore u s.queue).1, s.trace ++ (runUntilCore u s.queue).2⟩

/-- Modelled from the spec: the documented error classes.  The docs export
`ValidationError` and `ConditionTimeoutError`
(`src/docs/api/process.md`, "Core Exports" / "Error Types") and the
hospital example raises `PreemptionError` (`src/unnamed/part_001`).
`invalidTimeError` is the error class named only by the spec's taxonomy
(spec §7 `InvalidTimeError`); it is included so that the spec's claim
about `schedule` is statable — the documented API itself never mentions
it. -/
inductive SimError where
  | validationError
  | conditionTimeoutError
  | preemptionError
  | invalidTimeError
deriving DecidableEq, Repr

/-- Modelled from the spec: `schedule(time, callback, priority?)` appends
an event at the given absolute time; `time` must be `>= sim.now`, and the
docs state "Throws `ValidationError` if time is in the past"
(`src/docs/api/simulation.md`, "schedule()" Validation;
`src/docs/guide/errors.md` lists past/negative times under Common
Validation Errors). -/
def schedule (s : SimState) (time : ℚ) (priority : ℤ) :
    Except SimError SimState :=
  if time < s.now then Except.error SimError.validationError
  else Except.ok ⟨s.now, s.nextSeq + 1,
    s.queue ++ [⟨time, priority, s.nextSeq⟩], s.trace⟩

/-- Modelled from the spec: a batch of `schedule` submissions made before
`run()`; the `sequence` field records submission order 0,1,2,…
(spec §3 "sequence: integer (insertion order)"). -/
def submitEvents (reqs : List (ℚ × ℤ)) : List Event :=
  reqs.enum.map (fun p => ⟨p.2.1, p.2.2, p.1⟩)

/-- The dispatch order produced by running the batch to completion. -/
def traceOf (reqs : List (ℚ × ℤ)) : List Event :=
  drainAll (submitEvents reqs)

instance : IsAntisymm Event eventLE :=
  ⟨fun _ _ hab hba => eventLE_antisymm hab hba⟩

theorem sorted_indexOf_lt {l : List Event} (hs : l.Sorted eventLE)
    {a b : Event} (ha : a ∈ l) (hb : b ∈ l) (hab : eventLT a b) :
    l.indexOf a < l.indexOf b := by
  induction l with
  | nil => simp at ha
  | cons c tl ih =>
    have hc : ∀ x ∈ tl, eventLE c x := List.rel_of_sorted_cons hs
    have hs' : tl.Sorted eventLE := hs.of_cons
    by_cases hca : c = a
    · subst hca
      have hba : b ≠ c := fun he => (eventLT_ne hab) (he ▸ rfl)
      have hbtl : b ∈ tl := by
        rcases List.mem_cons.mp hb with h | h
        · exact absurd h hba
        · exact h
      rw [List.indexOf_cons_self]
      rw [List.indexOf_cons_ne _ (by simpa using (Ne.symm hba))]
      omega
    · have hatl : a ∈ tl := by
        rcases List.mem_cons.mp ha with h | h
        · exact absurd h.symm hca
        · exact h
      have hcb : c ≠ b := by
        intro he
        subst he
        exact (not_eventLE_of_eventLT hab) (hc a hatl)
      have hbtl : b ∈ tl := by
        rcases List.mem_cons.mp hb with h | h
        · exact absurd h.symm hcb
        · exact h
      rw [List.indexOf_cons_ne _ (by simpa using (Ne.symm (fun he => hca he.symm)))]
      rw [List.indexOf_cons_ne _ (by simpa using (Ne.symm (fun he => hcb he.symm)))]
      have := ih hs' hatl hbtl
      omega

theorem runUntilCore_nil {u : ℚ} {q : List Event} (hp : popMin q = none) :
    runUntilCore u q = ([], []) := by
  rw [runUntilCore, hp]

theorem runUntilCore_pop_le {u : ℚ} {q : List Event} {e : Event}
    {rest : List Event} (hp : popMin q = some (e, rest)) (hle : e.time ≤ u) :
    runUntilCore u q = ((runUntilCore u rest).1, e :: (runUntilCore u rest).2) := by
  rw [runUntilCore, hp]
  simp [hle]

theorem runUntilCore_pop_gt {u : ℚ} {q : List Event} {e : Event}
    {rest : List Event} (hp : popMin q = some (e, rest)) (hgt : ¬ e.time ≤ u) :
    runUntilCore u q = (q, []) := by
  rw [runUntilCore, hp]
  simp [hgt]

theorem eventLE_time {a b : Event} (h : eventLE a b) : a.time ≤ b.time := by
  rcases h with h | ⟨h, _⟩
  · exact le_of_lt h
  · exact le_of_eq h

theorem runUntilCore_compose (u1 u2 : ℚ) (h : u1 ≤ u2) (q : List Event) :
    (runUntilCore u2 (runUntilCore u1 q).1).1 = (runUntilCore u2 q).1
    ∧ (runUntilCore u1 q).2 ++ (runUntilCore u2 (runUntilCore u1 q).1).2
        = (runUntilCore u2 q).2 := by
  suffices key : ∀ n (q : List Event), q.length = n →
      (runUntilCore u2 (runUntilCore u1 q).1).1 = (runUntilCore u2 q).1
      ∧ (runUntilCore u1 q).2 ++ (runUntilCore u2 (runUntilCore u1 q).1).2
          = (runUntilCore u2 q).2 by
    exact key q.length q rfl
  intro n
  induction n using Nat.strong_induction_on with
  | _ n ih =>
  intro q hn
  cases hp : popMin q with
  | none =>
    have hq : q = [] := popMin_eq_none.mp hp
    subst hq
    simp [runUntilCore_nil (popMin_eq_none.mpr rfl)]
  | some pr =>
    obtain ⟨e, rest⟩ := pr
    by_cases h1 : e.time ≤ u1
    · have h2 : e.time ≤ u2 := le_trans h1 h
      have hlen : rest.length < n := by
        have := popMin_length hp
        omega
      have ihr := ih rest.length hlen rest rfl
      rw [runUntilCore_pop_le hp h1, runUntilCore_pop_le hp h2]
      constructor
      · exact ihr.1
      · simp only [List.cons_append, List.cons.injEq, true_and]
        exact ihr.2
    · rw [runUntilCore_pop_gt hp h1]
      simp

theorem runUntilCore_queue (u : ℚ) (q : List Event) :
    (runUntilCore u q).1 = q.filter (fun e => decide (u < e.time)) := by
  suffices key : ∀ n (q : List Event), q.length = n →
      (runUntilCore u q).1 = q.filter (fun e => decide (u < e.time)) by
    exact key q.length q rfl
  intro n
  induction n using Nat.strong_induction_on with
  | _ n ih =>
  intro q hn
  cases hp : popMin q with
  | none =>
    have hq : q = [] := popMin_eq_none.mp hp
    subst hq
    simp [runUntilCore_nil (popMin_eq_none.mpr rfl)]
  | some pr =>
    obtain ⟨e, rest⟩ := pr
    by_cases h1 : e.time ≤ u
    · have hlen : rest.length < n := by
        have := popMin_length hp
        omega
      have ihr := ih rest.length hlen rest rfl
      rw [runUntilCore_pop_le hp h1]
      obtain ⟨l1, l2, hq, hr⟩ := popMin_split hp
      subst hq; subst hr
      simp only [List.filter_append, List.filter_cons]
      have : decide (u < e.time) = false := by
        simp [not_lt.mpr h1]
      rw [this]
      simp [ihr, List.filter_append]
    · rw [runUntilCore_pop_gt hp h1]
      have hall : ∀ x ∈ q, decide (u < x.time) = true := by
        intro x hx
        have := eventLE_time (popMin_min hp x hx)
        simp only [decide_eq_true_eq]
        exact lt_of_lt_of_le (lt_of_not_le h1) this
      exact (List.filter_eq_self.mpr hall).symm

theorem runUntilCore_trace_perm (u : ℚ) (q : List Event) :
    (runUntilCore u q).2.Perm (q.filter (fun e => decide (e.time ≤ u))) := by
  suffices key : ∀ n (q : List Event), q.length = n →
      (runUntilCore u q).2.Perm (q.filter (fun e => decide (e.time ≤ u))) by
    exact key q.length q rfl
  intro n
  induction n using Nat.strong_induction_on with
  | _ n ih =>
  intro q hn
  cases hp : popMin q with
  | none =>
    have hq : q = [] := popMin_eq_none.mp hp
    subst hq
    simp [runUntilCore_nil (popMin_eq_none.mpr rfl)]
  | some pr =>
    obtain ⟨e, rest⟩ := pr
    by_cases h1 : e.time ≤ u
    · have hlen : rest.length < n := by
        have := popMin_length hp
        omega
      have ihr := ih rest.length hlen rest rfl
      rw [runUntilCore_pop_le hp h1]
      obtain ⟨l1, l2, hq, hr⟩ := popMin_split hp
      subst hq; subst hr
      simp only [List.filter_append, List.filter_cons]
      have he : decide (e.time ≤ u) = true := by simp [h1]
      rw [he]
      simp only [ite_true]
      refine List.Perm.trans (List.Perm.cons e ?_) List.perm_middle.symm
      simpa [List.filter_append] using ihr
    · rw [runUntilCore_pop_gt hp h1]
      have hall : ∀ x ∈ q, ¬ (decide (x.time ≤ u) = true) := by
        intro x hx
        have := eventLE_time (popMin_min hp x hx)
        simp only [decide_eq_true_eq]
        intro hxu
        exact h1 (le_trans this hxu)
      simp [List.filter_eq_nil.mpr hall]

/-- Modelled from the spec: a resource holder entry `{requesterId, priority}`
(spec §3 "holders: set of {requesterId, priority}"). -/
structure Holder where
  rid : ℕ
  priority : ℤ
deriving DecidableEq, Repr

/-- Modelled from the spec: a wait-queue entry
`{requesterId, priority, preemptive}` (spec §3). -/
structure WaitEntry where
  rid : ℕ
  priority : ℤ
  preemptive : Bool
deriving DecidableEq, Repr

/-- Modelled from the spec: `Resource` state
`{capacity, inUse, holders, waitQueue}` (spec §3;
`src/unnamed/part_003` "Resource Properties": `capacity`, `inUse`,
`available`, `queueLength`). -/
structure ResourceState where
  capacity : ℕ
  inUse : ℕ
  holders : List Holder
  waitQueue : List WaitEntry
deriving DecidableEq, Repr

/-- Outcome of a `request` call: immediate grant, enqueued, or granted by
preempting the returned victim. -/
inductive RequestResult where
  | granted
  | queued
  | preempted (victim : Holder)
deriving DecidableEq, Repr

/-- Modelled from the spec: wait-queue insertion keeps the queue ordered by
ascending priority value, ties broken by arrival order (spec §4.3 "Queue
path: append …, keeping it ordered by ascending priority value then
arrival order"). -/
def insertWait (w : WaitEntry) : List WaitEntry → List WaitEntry
  | [] => [w]
  | x :: xs => if x.priority ≤ w.priority then x :: insertWait w xs else w :: x :: xs

/-- Modelled from the spec: the holder with the numerically largest
priority value, i.e. lowest precedence (spec §4.3 "Find the holder with
the numerically largest priority value"; `src/unnamed/part_001` "Find
lowest-priority user currently holding resource").  Ties keep the
earliest-listed holder. -/
def lowestPrecHolder : List Holder → Option Holder
  | [] => none
  | h :: hs =>
    match lowestPrecHolder hs with
    | none => some h
    | some m => if h.priority < m.priority then some m else some h

/-- Modelled from the spec: `request(priority, preemptive)`
(spec §4.3; `src/unnamed/part_001` "Preemption Algorithm": grant if a slot
is free; if full and preemptive, evict the lowest-precedence holder only
when the requester's priority value is strictly smaller, else queue). -/
def Resource.request (s : ResourceState) (rid : ℕ) (priority : ℤ)
    (preemptive : Bool) : ResourceState × RequestResult :=
  if s.inUse < s.capacity then
    (⟨s.capacity, s.inUse + 1, s.holders ++ [⟨rid, priority⟩], s.waitQueue⟩,
      RequestResult.granted)
  else if preemptive then
    match lowestPrecHolder s.holders with
    | none =>
      (⟨s.capacity, s.inUse, s.holders,
        insertWait ⟨rid, priority, preemptive⟩ s.waitQueue⟩, RequestResult.queued)
    | some v =>
      if priority < v.priority then
        (⟨s.capacity, s.inUse, (s.holders.erase v) ++ [⟨rid, priority⟩],
          s.waitQueue⟩, RequestResult.preempted v)
      else
        (⟨s.capacity, s.inUse, s.holders,
          insertWait ⟨rid, priority, preemptive⟩ s.waitQueue⟩, RequestResult.queued)
  else
    (⟨s.capacity, s.inUse, s.holders,
      insertWait ⟨rid, priority, preemptive⟩ s.waitQueue⟩, RequestResult.queued)

/-- Modelled from the spec: `release()` decrements `inUse` and removes the
caller from `holders`; if the wait queue is non-empty its head is granted
immediately (spec §4.3 "release(): decrement inUse, remove caller from
holders; if waitQueue non-empty, pop its head and grant").  A release by a
non-holder leaves the state unchanged. -/
def Resource.release (s : ResourceState) (rid : ℕ) : ResourceState :=
  match s.holders.find? (fun h => h.rid == rid) with
  | none => s
  | some h =>
    match s.waitQueue with
    | [] => ⟨s.capacity, s.inUse - 1, s.holders.erase h, s.waitQueue⟩
    | w :: ws =>
      ⟨s.capacity, s.inUse, (s.holders.erase h) ++ [⟨w.rid, w.priority⟩], ws⟩

/-- Modelled from the spec: the states a `Resource` can reach — constructed
with capacity ≥ 1 (spec §4.3 "constructing with capacity < 1 fails with
ValidationError") and closed under `request` and `release`. -/
inductive ResourceReachable : ResourceState → Prop where
  | init (capacity : ℕ) (h : 1 ≤ capacity) :
      ResourceReachable ⟨capacity, 0, [], []⟩
  | request (s : ResourceState) (rid : ℕ) (priority : ℤ) (preemptive : Bool) :
      ResourceReachable s →
      ResourceReachable (Resource.request s rid priority preemptive).1
  | release (s : ResourceState) (rid : ℕ) :
      ResourceReachable s → ResourceReachable (Resource.release s rid)

/-- Modelled from the spec: `Buffer` state
`{capacity, level, putQueue, getQueue}` (spec §3;
`src/docs/api/process.md` Buffer Properties: `capacity`, `level`,
`available`, `putQueueLength`, `getQueueLength`).  Queued entries carry
the requester id and the amount. -/
structure BufferState where
  capacity : ℚ
  level : ℚ
  putQueue : List (ℕ × ℚ)
  getQueue : List (ℕ × ℚ)
deriving DecidableEq, Repr

/-- Modelled from the spec: after a put raises the level, the get queue is
drained greedily in strict FIFO order, stopping at the first request that
cannot yet be satisfied (spec §3, §4.4 "no skipping ahead").  Returns the
final level, the remaining queue and the satisfied entries. -/
def drainGets : ℚ → List (ℕ × ℚ) → ℚ × List (ℕ × ℚ) × List (ℕ × ℚ)
  | lv, [] => (lv, [], [])
  | lv, g :: gs =>
    if g.2 ≤ lv then
      let r := drainGets (lv - g.2) gs
      (r.1, r.2.1, g :: r.2.2)
    else (lv, g :: gs, [])

/-- Modelled from the spec: after a get lowers the level, the put queue is
drained greedily in strict FIFO order, stopping at the first request whose
amount does not fit in the free space (spec §4.4). -/
def drainPuts (cap : ℚ) : ℚ → List (ℕ × ℚ) → ℚ × List (ℕ × ℚ) × List (ℕ × ℚ)
  | lv, [] => (lv, [], [])
  | lv, p :: ps =>
    if p.2 ≤ cap - lv then
      let r := drainPuts cap (lv + p.2) ps
      (r.1, r.2.1, p :: r.2.2)
    else (lv, p :: ps, [])

/-- Modelled from the spec: the `Buffer` constructor
(`src/docs/api/process.md` Buffer Constructor: "`capacity` must be > 0 and
finite; `initialLevel` must be >= 0 and <= capacity; Throws
`ValidationError` for invalid parameters"; `initialLevel` defaults to 0).
JavaScript's non-finite numbers have no counterpart in `ℚ`, so the
finiteness clause is vacuous here. -/
def Buffer.make (capacity : ℚ) (initialLevel : Option ℚ) :
    Except SimError BufferState :=
  if capacity ≤ 0 then Except.error SimError.validationError
  else if initialLevel.getD 0 < 0 ∨ capacity < initialLevel.getD 0 then
    Except.error SimError.validationError
  else Except.ok ⟨capacity, initialLevel.getD 0, [], []⟩

/-- Modelled from the spec: `put(amount)` validates `amount > 0` and fails
with `ValidationError` if `amount > capacity` (can never be satisfied);
otherwise it fills immediately when space allows — then drains the get
queue — or joins the put queue FIFO (spec §4.4;
`src/docs/api/process.md` Buffer `put()`: "must be > 0 and <= capacity",
"Throws error if amount > capacity").  The boolean reports immediate
satisfaction. -/
def Buffer.put (b : BufferState) (rid : ℕ) (amount : ℚ) :
    Except SimError (BufferState × Bool) :=
  if amount ≤ 0 then Except.error SimError.validationError
  else if b.capacity < amount then Except.error SimError.validationError
  else if amount ≤ b.capacity - b.level then
    let r := drainGets (b.level + amount) b.getQueue
    Except.ok (⟨b.capacity, r.1, b.putQueue, r.2.1⟩, true)
  else
    Except.ok (⟨b.capacity, b.level, b.putQueue ++ [(rid, amount)], b.getQueue⟩, false)

/-- Modelled from the spec: `get(amount)` validates `amount > 0`;
otherwise it draws immediately when the level suffices — then drains the
put queue — or joins the get queue FIFO (spec §4.4;
`src/docs/api/process.md` Buffer `get()`). -/
def Buffer.get (b : BufferState) (rid : ℕ) (amount : ℚ) :
    Except SimError (BufferState × Bool) :=
  if amount ≤ 0 then Except.error SimError.validationError
  else if amount ≤ b.level then
    let r := drainPuts b.capacity (b.level - amount) b.putQueue
    Except.ok (⟨b.capacity, r.1, r.2.1, b.getQueue⟩, true)
  else
    Except.ok (⟨b.capacity, b.level, b.putQueue, b.getQueue ++ [(rid, amount)]⟩, false)

/-- Modelled from the spec: a queued `Store.get` request with its optional
filter predicate (spec §3 "getQueue: ordered list of
{predicate, continuation}"; `src/docs/api/process.md` Store `get()`:
"filter - Optional predicate function…If omitted, returns first item
(FIFO)").  Items are modelled as `ℕ`. -/
structure GetRequest where
  rid : ℕ
  pred : Option (ℕ → Bool)

/-- The effective predicate of a get request: the supplied filter, or the
always-true filter when none was given. -/
def GetRequest.test (g : GetRequest) : ℕ → Bool :=
  g.pred.getD (fun _ => true)

/-- Modelled from the spec: `Store` state
`{capacity, items (insertion order), putQueue, getQueue}` (spec §3;
`src/docs/api/process.md` Store Properties: `capacity`, `size`,
`available`). -/
structure StoreState where
  capacity : ℕ
  items : List ℕ
  putQueue : List (ℕ × ℕ)
  getQueue : List GetRequest

/-- Modelled from the spec: the matching pass run on every state change —
iterate the get queue in arrival order; for each entry scan `items` for
the first element satisfying its predicate; on a match remove the item and
fulfil that entry, then continue with the remaining entries against the
remaining items (spec §4.5).  Returns the remaining items, the still
waiting get requests, and the fulfilled `(request, item)` pairs. -/
def matchGets : List ℕ → List GetRequest →
    List ℕ × List GetRequest × List (GetRequest × ℕ)
  | items, [] => (items, [], [])
  | items, g :: gs =>
    match items.find? g.test with
    | some x =>
      let r := matchGets (items.erase x) gs
      (r.1, r.2.1, (g, x) :: r.2.2)
    | none =>
      let r := matchGets items gs
      (r.1, g :: r.2.1, r.2.2)

/-- Modelled from the spec: while space is free, admit queued puts in FIFO
order, running the matching pass after each admitted item (spec §3 "Put
succeeds immediately if `|items| < capacity`, else queues FIFO";
§4.5). -/
def admitPuts (cap : ℕ) : List ℕ → List (ℕ × ℕ) → List GetRequest →
    List ℕ × List (ℕ × ℕ) × List GetRequest × List (GetRequest × ℕ)
  | items, [], gets => (items, [], gets, [])
  | items, p :: ps, gets =>
    if items.length < cap then
      let m := matchGets (items ++ [p.2]) gets
      let r := admitPuts cap m.1 ps m.2.1
      (r.1, r.2.1, r.2.2.1, m.2.2 ++ r.2.2.2)
    else (items, p :: ps, gets, [])

/-- Modelled from the spec: `Store.put(item)` stores the item immediately
when space is available — then runs the matching pass — or queues the
putter FIFO (`src/docs/api/process.md` Store `put()` Behavior).  Returns
the new state and the get requests fulfilled by this state change. -/
def Store.put (s : StoreState) (rid : ℕ) (item : ℕ) :
    StoreState × List (GetRequest × ℕ) :=
  if s.items.length < s.capacity then
    let m := matchGets (s.items ++ [item]) s.getQueue
    let r := admitPuts s.capacity m.1 s.putQueue m.2.1
    (⟨s.capacity, r.1, r.2.1, r.2.2.1⟩, m.2.2 ++ r.2.2.2)
  else (⟨s.capacity, s.items, s.putQueue ++ [(rid, item)], s.getQueue⟩, [])

/-- Modelled from the spec: `Store.get(filter?)` scans `items` in
insertion order for the first element satisfying the predicate (the first
item when no filter is given), removes and returns it — freed space then
admits queued puts — or queues the request when nothing matches
(`src/docs/api/process.md` Store `get()` Behavior; spec §4.5). -/
def Store.get (s : StoreState) (rid : ℕ) (pred : Option (ℕ → Bool)) :
    StoreState × Option ℕ × List (GetRequest × ℕ) :=
  match s.items.find? (GetRequest.test ⟨rid, pred⟩) with
  | some x =>
    let r := admitPuts s.capacity (s.items.erase x) s.putQueue s.getQueue
    (⟨s.capacity, r.1, r.2.1, r.2.2.1⟩, some x, r.2.2.2)
  | none =>
    (⟨s.capacity, s.items, s.putQueue, s.getQueue ++ [⟨rid, pred⟩]⟩, none, [])

/-- Modelled from the spec: the states a `Store` can reach — constructed
with capacity > 0 (`src/docs/api/process.md` Store Constructor
Validation) and closed under `put` and `get`. -/
inductive StoreReachable : StoreState → Prop where
  | init (capacity : ℕ) (h : 1 ≤ capacity) :
      StoreReachable ⟨capacity, [], [], []⟩
  | put (s : StoreState) (rid : ℕ) (item : ℕ) :
      StoreReachable s → StoreReachable (Store.put s rid item).1
  | get (s : StoreState) (rid : ℕ) (pred : Option (ℕ → Bool)) :
      StoreReachable s → StoreReachable (Store.get s rid pred).1

/-- Modelled from the spec: `waitFor(predicate, {interval=1,
maxIterations=∞})` re-checks the predicate every `interval` simulation
time units as a self-rescheduling timed delay (spec §4.6;
`src/unnamed/part_002` "Configurable Condition Waiting";
`src/docs/api/process.md` ConditionTimeoutError).  The predicate is
modelled as a function of the check number — the k-th check happens at
elapsed time `k * interval`; `chk` counts checks already made and `rem`
the remaining iteration budget. -/
def waitForAux (pred : ℕ → Bool) (interval : ℚ) : ℕ → ℕ → Except SimError ℚ
  | _, 0 => Except.error SimError.conditionTimeoutError
  | chk, rem + 1 =>
    if pred (chk + 1) then Except.ok ((chk + 1 : ℕ) * interval)
    else waitForAux pred interval (chk + 1) rem

/-- Modelled from the spec: `waitFor` with its defaults — `interval`
defaults to 1 (`src/unnamed/part_002` WaitForOptions).  The unbounded
default `maxIterations = ∞` is not a total function; it is covered by
quantifying over every sufficiently large finite budget. -/
def waitFor (pred : ℕ → Bool) (interval : Option ℚ) (maxIterations : ℕ) :
    Except SimError ℚ :=
  waitForAux pred (interval.getD 1) 0 maxIterations

/-- Modelled from the spec: the process lifecycle states (spec §3
"state ∈ {Scheduled, Running, Suspended, Completed, Cancelled}";
`src/docs/api/process.md` Process Lifecycle). -/
inductive ProcState where
  | scheduled
  | running
  | suspended
  | completed
  | cancelled
deriving DecidableEq, Repr

/-- Modelled from the spec: the scheduler's process registry and the wait
lists a live process may be registered on (spec §4.2 cancel: "removes it
from that primitive's wait list"). -/
structure ProcSim where
  procs : List (ℕ × ProcState)
  waiters : List ℕ
deriving DecidableEq, Repr

/-- The registered state of a process id, if any. -/
def stateOf (m : ProcSim) (pid : ℕ) : Option ProcState :=
  (m.procs.find? (fun q => q.1 == pid)).map Prod.snd

/-- Modelled from the spec: `isAlive()` reports
`state ∉ {Completed, Cancelled}` (spec §4.2;
`src/docs/api/process.md` isAlive: "true if process is active, false if
completed or cancelled"). -/
def Process.isAlive (m : ProcSim) (pid : ℕ) : Bool :=
  match stateOf m pid with
  | some ProcState.completed => false
  | some ProcState.cancelled => false
  | some _ => true
  | none => false

/-- Modelled from the spec: `cancel()` marks a live process Cancelled and
removes it from any wait list; on a dead process it is a no-op
(`src/docs/api/process.md` Best Practices: "cancel() is safe on dead
processes … No-op if already dead"; spec §4.2). -/
def Process.cancel (m : ProcSim) (pid : ℕ) : ProcSim :=
  if Process.isAlive m pid then
    ⟨m.procs.map (fun q => if q.1 == pid then (q.1, ProcState.cancelled) else q),
      m.waiters.filter (fun w => w != pid)⟩
  else m

/-- C1: events sharing a time and a priority are executed by the run loop
in submission order (insertion-sequence tie-break), and the dispatch
ordering is uniquely determined — any run producing an
`(time, priority, sequence)`-ordered arrangement of the same submissions
yields the identical event ordering, so two runs with the same inputs
coincide. -/
theorem run_fifo_tie_break_deterministic
    (reqs : List (ℚ × ℤ)) (a b : Event)
    (ha : a ∈ submitEvents reqs) (hb : b ∈ submitEvents reqs)
    (ht : a.time = b.time) (hp : a.priority = b.priority) (hs : a.seq < b.seq) :
    (traceOf reqs).indexOf a < (traceOf reqs).indexOf b
    ∧ ∀ t : List Event,
        t.Perm (submitEvents reqs) → t.Sorted eventLE → t = traceOf reqs := by
  have hperm : (traceOf reqs).Perm (submitEvents reqs) := drainAll_perm _
  have hsorted := drainAll_sorted (submitEvents reqs)
  constructor
  · exact sorted_indexOf_lt hsorted (hperm.mem_iff.mpr ha) (hperm.mem_iff.mpr hb)
      (Or.inr ⟨ht, Or.inr ⟨hp, hs⟩⟩)
  · intro t hpt hst
    exact List.eq_of_perm_of_sorted (hpt.trans hperm.symm) hst hsorted

/-- Witness for C1, on the documented trace example
(`sim.schedule(10, A, 0); sim.schedule(10, B, 1); sim.schedule(10, C, 0)`,
`src/unnamed/part_002`): A (sequence 0) executes before C (sequence 2). -/
theorem run_fifo_tie_break_deterministic_witness :
    ((⟨10, 0, 0⟩ : Event) ∈ submitEvents [((10 : ℚ), (0 : ℤ)), (10, 1), (10, 0)]
      ∧ (⟨10, 0, 2⟩ : Event) ∈ submitEvents [((10 : ℚ), (0 : ℤ)), (10, 1), (10, 0)]
      ∧ (0 : ℕ) < 2)
    ∧ ((traceOf [((10 : ℚ), (0 : ℤ)), (10, 1), (10, 0)]).indexOf ⟨10, 0, 0⟩
        < (traceOf [((10 : ℚ), (0 : ℤ)), (10, 1), (10, 0)]).indexOf ⟨10, 0, 2⟩
      ∧ ∀ t : List Event,
          t.Perm (submitEvents [((10 : ℚ), (0 : ℤ)), (10, 1), (10, 0)]) →
          t.Sorted eventLE →
          t = traceOf [((10 : ℚ), (0 : ℤ)), (10, 1), (10, 0)]) :=
  ⟨⟨by decide, by decide, by decide⟩,
    run_fifo_tie_break_deterministic _ _ _ (by decide) (by decide)
      (by decide) (by decide) (by decide)⟩

/-- C4: running `run(until=u1)` and then `run(until=u2)` with `u1 ≤ u2` on
the same instance leaves it in the same final state as a single
`run(until=u2)`; `run(until)` dispatches exactly the queued events with
`time ≤ until`, then sets `now = until` and leaves the later events
queued. -/
theorem run_until_resumable (u1 u2 : ℚ) (h : u1 ≤ u2) (s : SimState) :
    runUntil u2 (runUntil u1 s) = runUntil u2 s
    ∧ (runUntil u2 s).now = u2
    ∧ (runUntil u2 s).queue = s.queue.filter (fun e => decide (u2 < e.time))
    ∧ (runUntil u2 s).trace.Perm
        (s.trace ++ s.queue.filter (fun e => decide (e.time ≤ u2))) := by
  refine ⟨?_, rfl, runUntilCore_queue u2 s.queue, ?_⟩
  · have hc := runUntilCore_compose u1 u2 h s.queue
    simp [runUntil, List.append_assoc, hc.1, hc.2]
  · exact List.Perm.append_left s.trace (runUntilCore_trace_perm u2 s.queue)

/-- Witness for C4: a three-event queue run as `run(50)` then `run(100)`
versus a single `run(100)`. -/
theorem run_until_resumable_witness :
    (50 : ℚ) ≤ 100
    ∧ (runUntil 100 (runUntil 50 ⟨0, 3, [⟨10, 0, 0⟩, ⟨60, 0, 1⟩, ⟨110, 0, 2⟩], []⟩)
        = runUntil 100 ⟨0, 3, [⟨10, 0, 0⟩, ⟨60, 0, 1⟩, ⟨110, 0, 2⟩], []⟩
      ∧ (runUntil 100 (⟨0, 3, [⟨10, 0, 0⟩, ⟨60, 0, 1⟩, ⟨110, 0, 2⟩], []⟩ : SimState)).now = 100
      ∧ (runUntil 100 (⟨0, 3, [⟨10, 0, 0⟩, ⟨60, 0, 1⟩, ⟨110, 0, 2⟩], []⟩ : SimState)).queue
          = [⟨10, 0, 0⟩, ⟨60, 0, 1⟩, ⟨110, 0, 2⟩].filter (fun e => decide ((100 : ℚ) < e.time))
      ∧ (runUntil 100 (⟨0, 3, [⟨10, 0, 0⟩, ⟨60, 0, 1⟩, ⟨110, 0, 2⟩], []⟩ : SimState)).trace.Perm
          ([] ++ [⟨10, 0, 0⟩, ⟨60, 0, 1⟩, ⟨110, 0, 2⟩].filter (fun e => decide (e.time ≤ (100 : ℚ))))) :=
  ⟨by decide, run_until_resumable 50 100 (by decide) _⟩

/-- C2 counterexample: scheduling at time 3 while the clock stands at 5 is
in the past, yet the call does not fail with the spec's
`InvalidTimeError` — the documented behaviour
(`src/docs/api/simulation.md`, "Throws `ValidationError` if time is in the
past") is `ValidationError`. -/
theorem schedule_past_error_class_counterexample :
    (3 : ℚ) < 5
    ∧ schedule ⟨5, 0, [], []⟩ 3 0 ≠ Except.error SimError.invalidTimeError
    ∧ schedule ⟨5, 0, [], []⟩ 3 0 = Except.error SimError.validationError := by
  have h35 : (3 : ℚ) < 5 := by norm_num
  refine ⟨h35, ?_, ?_⟩ <;> simp [schedule, h35]

/-- C2 amended: `schedule(time, …)` with `time < now` fails synchronously
with `ValidationError` (the documented error class; the docs never define
an `InvalidTimeError`), and with `time ≥ now` the event is enqueued
without error. -/
theorem schedule_validation (s : SimState) (t : ℚ) (p : ℤ) :
    (t < s.now → schedule s t p = Except.error SimError.validationError)
    ∧ (s.now ≤ t → schedule s t p
        = Except.ok ⟨s.now, s.nextSeq + 1, s.queue ++ [⟨t, p, s.nextSeq⟩], s.trace⟩) := by
  constructor
  · intro h
    simp [schedule, h]
  · intro h
    simp [schedule, not_lt.mpr h]

/-- Witness for C2 (amended): with the clock at 5, scheduling at 3 fails
with `ValidationError` and scheduling at 7 enqueues the event. -/
theorem schedule_validation_witness :
    (((3 : ℚ) < 5 → schedule ⟨5, 0, [], []⟩ 3 0 = Except.error SimError.validationError)
      ∧ ((5 : ℚ) ≤ 3 → schedule ⟨5, 0, [], []⟩ 3 0
          = Except.ok ⟨5, 1, [] ++ [⟨3, 0, 0⟩], []⟩))
    ∧ (((7 : ℚ) < 5 → schedule ⟨5, 0, [], []⟩ 7 0 = Except.error SimError.validationError)
      ∧ ((5 : ℚ) ≤ 7 → schedule ⟨5, 0, [], []⟩ 7 0
          = Except.ok ⟨5, 1, [] ++ [⟨7, 0, 0⟩], []⟩)) :=
  ⟨schedule_validation ⟨5, 0, [], []⟩ 3 0, schedule_validation ⟨5, 0, [], []⟩ 7 0⟩

theorem lowestPrecHolder_none {hs : List Holder} :
    lowestPrecHolder hs = none ↔ hs = [] := by
  cases hs with
  | nil => simp [lowestPrecHolder]
  | cons h t =>
    simp only [lowestPrecHolder]
    cases hm : lowestPrecHolder t with
    | none => simp
    | some m =>
      by_cases hlt : h.priority < m.priority <;> simp [hlt]

theorem lowestPrecHolder_mem {hs : List Holder} {v : Holder}
    (h : lowestPrecHolder hs = some v) : v ∈ hs := by
  induction hs generalizing v with
  | nil => simp [lowestPrecHolder] at h
  | cons a t ih =>
    simp only [lowestPrecHolder] at h
    cases hm : lowestPrecHolder t with
    | none =>
      rw [hm] at h
      simp at h
      exact h ▸ List.mem_cons_self a t
    | some m =>
      rw [hm] at h
      by_cases hlt : a.priority < m.priority
      · simp [hlt] at h
        exact List.mem_cons_of_mem a (h ▸ ih hm)
      · simp [hlt] at h
        exact h ▸ List.mem_cons_self a t

theorem lowestPrecHolder_max {hs : List Holder} {v : Holder}
    (h : lowestPrecHolder hs = some v) : ∀ x ∈ hs, x.priority ≤ v.priority := by
  induction hs generalizing v with
  | nil => simp [lowestPrecHolder] at h
  | cons a t ih =>
    simp only [lowestPrecHolder] at h
    cases hm : lowestPrecHolder t with
    | none =>
      rw [hm] at h
      simp at h
      have ht : t = [] := lowestPrecHolder_none.mp hm
      subst ht
      intro x hx
      simp at hx
      exact hx ▸ h ▸ le_refl _
    | some m =>
      rw [hm] at h
      by_cases hlt : a.priority < m.priority
      · simp [hlt] at h
        intro x hx
        rcases List.mem_cons.mp hx with hx | hx
        · exact hx ▸ h ▸ le_of_lt hlt
        · exact h ▸ ih hm x hx
      · simp [hlt] at h
        intro x hx
        rcases List.mem_cons.mp hx with hx | hx
        · exact hx ▸ h ▸ le_refl _
        · exact le_trans (ih hm x hx) (h ▸ not_lt.mp hlt)

/-- C3: a preemptive request evicts a current holder only when that
holder's priority value is strictly greater (lower precedence) than the
requester's; a holder with priority value ≤ the requester's is never
evicted — when the resource is full and no holder has strictly lower
precedence, the request is queued and the holder set is untouched. -/
theorem resource_preemption_safety (s : ResourceState) (rid : ℕ) (pri : ℤ)
    (pre : Bool) :
    (∀ v, (Resource.request s rid pri pre).2 = RequestResult.preempted v →
        v ∈ s.holders ∧ pri < v.priority)
    ∧ (pre = true → ¬ s.inUse < s.capacity →
        (∀ h ∈ s.holders, h.priority ≤ pri) →
        (Resource.request s rid pri pre).2 = RequestResult.queued
        ∧ (Resource.request s rid pri pre).1.holders = s.holders) := by
  by_cases hc : s.inUse < s.capacity
  · refine ⟨?_, ?_⟩
    · intro v hv
      simp [Resource.request, hc] at hv
    · intro _ hnc
      exact absurd hc hnc
  · cases pre with
    | false =>
      refine ⟨?_, ?_⟩
      · intro v hv
        simp [Resource.request, hc] at hv
      · intro hpre
        simp at hpre
    | true =>
      cases hl : lowestPrecHolder s.holders with
      | none =>
        refine ⟨?_, ?_⟩
        · intro v hv
          simp [Resource.request, hc, hl] at hv
        · intro _ _ _
          constructor <;> simp [Resource.request, hc, hl]
      | some v =>
        by_cases hpv : pri < v.priority
        · refine ⟨?_, ?_⟩
          · intro v2 hv2
            simp [Resource.request, hc, hl, hpv] at hv2
            exact hv2 ▸ ⟨lowestPrecHolder_mem hl, hpv⟩
          · intro _ _ hall
            exact absurd hpv (not_lt.mpr (hall v (lowestPrecHolder_mem hl)))
        · refine ⟨?_, ?_⟩
          · intro v2 hv2
            simp [Resource.request, hc, hl, hpv] at hv2
          · intro _ _ _
            constructor <;> simp [Resource.request, hc, hl, hpv]

/-- Witness for C3: a full capacity-1 resource held at priority 10; a
preemptive request at priority 0 may evict only holders of strictly larger
priority value, and with all holders at priority ≤ the requester's the
request queues instead. -/
theorem resource_preemption_safety_witness :
    (∀ v, (Resource.request ⟨1, 1, [⟨1, 10⟩], []⟩ 2 0 true).2
          = RequestResult.preempted v → v ∈ [(⟨1, 10⟩ : Holder)] ∧ 0 < v.priority)
    ∧ (true = true → ¬ (1 : ℕ) < 1 →
        (∀ h ∈ [(⟨1, 10⟩ : Holder)], h.priority ≤ (0 : ℤ)) →
        (Resource.request ⟨1, 1, [⟨1, 10⟩], []⟩ 2 0 true).2 = RequestResult.queued
        ∧ (Resource.request ⟨1, 1, [⟨1, 10⟩], []⟩ 2 0 true).1.holders
            = [(⟨1, 10⟩ : Holder)]) :=
  resource_preemption_safety ⟨1, 1, [⟨1, 10⟩], []⟩ 2 0 true

/-- The `Resource` representation invariant of C5. -/
def ResourceInv (s : ResourceState) : Prop :=
  s.inUse = s.holders.length ∧ s.inUse ≤ s.capacity

theorem request_preserves_inv (s : ResourceState) (rid : ℕ) (pri : ℤ)
    (pre : Bool) (hs : ResourceInv s) :
    ResourceInv (Resource.request s rid pri pre).1 := by
  obtain ⟨h1, h2⟩ := hs
  by_cases hc : s.inUse < s.capacity
  · simp [Resource.request, hc, ResourceInv]
    omega
  · cases pre with
    | false =>
      simpa [Resource.request, hc, ResourceInv] using ⟨h1, h2⟩
    | true =>
      cases hl : lowestPrecHolder s.holders with
      | none =>
        simpa [Resource.request, hc, hl, ResourceInv] using ⟨h1, h2⟩
      | some v =>
        by_cases hpv : pri < v.priority
        · have hmem := lowestPrecHolder_mem hl
          have hlen : (s.holders.erase v).length = s.holders.length - 1 :=
            List.length_erase_of_mem hmem
          have hpos : 1 ≤ s.holders.length := List.length_pos.mpr
            (List.ne_nil_of_mem hmem)
          simp [Resource.request, hc, hl, hpv, ResourceInv, hlen]
          omega
        · simpa [Resource.request, hc, hl, hpv, ResourceInv] using ⟨h1, h2⟩

theorem release_preserves_inv (s : ResourceState) (rid : ℕ)
    (hs : ResourceInv s) : ResourceInv (Resource.release s rid) := by
  obtain ⟨h1, h2⟩ := hs
  cases hf : s.holders.find? (fun h => h.rid == rid) with
  | none =>
    simpa [Resource.release, hf, ResourceInv] using ⟨h1, h2⟩
  | some h =>
    have hmem : h ∈ s.holders := List.mem_of_find?_eq_some hf
    have hlen : (s.holders.erase h).length = s.holders.length - 1 :=
      List.length_erase_of_mem hmem
    have hpos : 1 ≤ s.holders.length := List.length_pos.mpr
      (List.ne_nil_of_mem hmem)
    cases hw : s.waitQueue with
    | nil =>
      simp [Resource.release, hf, hw, ResourceInv, hlen]
      omega
    | cons w ws =>
      simp [Resource.release, hf, hw, ResourceInv, hlen]
      omega

/-- C5: in every reachable state of a `Resource` of capacity `C`,
`0 ≤ inUse ≤ C` and `inUse` equals the number of current holders; every
`request` (grant, queue or preemption path) and `release` preserves
this. -/
theorem resource_inUse_invariant (s : ResourceState)
    (h : ResourceReachable s) :
    0 ≤ s.inUse ∧ s.inUse ≤ s.capacity ∧ s.inUse = s.holders.length := by
  suffices hinv : ResourceInv s by
    exact ⟨Nat.zero_le _, hinv.2, hinv.1⟩
  induction h with
  | init capacity hcap => exact ⟨rfl, Nat.zero_le _⟩
  | request s rid pri pre _ ih => exact request_preserves_inv s rid pri pre ih
  | release s rid _ ih => exact release_preserves_inv s rid ih

/-- Witness for C5: the invariant at the state reached by constructing a
capacity-2 resource, granting one request and releasing it. -/
theorem resource_inUse_invariant_witness :
    0 ≤ (Resource.release (Resource.request ⟨2, 0, [], []⟩ 1 5 false).1 1).inUse
    ∧ (Resource.release (Resource.request ⟨2, 0, [], []⟩ 1 5 false).1 1).inUse
        ≤ (Resource.release (Resource.request ⟨2, 0, [], []⟩ 1 5 false).1 1).capacity
    ∧ (Resource.release (Resource.request ⟨2, 0, [], []⟩ 1 5 false).1 1).inUse
        = (Resource.release (Resource.request ⟨2, 0, [], []⟩ 1 5 false).1 1).holders.length :=
  resource_inUse_invariant _
    (ResourceReachable.release _ 1
      (ResourceReachable.request _ 1 5 false (ResourceReachable.init 2 (by decide))))

/-- C10: the Buffer constructor defaults `initialLevel` to 0, accepts
exactly the parameters with `capacity > 0` and
`0 ≤ initialLevel ≤ capacity`, rejects the rest with `ValidationError`,
and on success starts the level at `initialLevel` with empty queues. -/
theorem buffer_constructor_validation (c : ℚ) (il : Option ℚ) :
    (∀ b, Buffer.make c il = Except.ok b →
        b.capacity = c ∧ b.level = il.getD 0 ∧ b.putQueue = [] ∧ b.getQueue = [])
    ∧ ((∃ b, Buffer.make c il = Except.ok b) ↔
        0 < c ∧ 0 ≤ il.getD 0 ∧ il.getD 0 ≤ c)
    ∧ Buffer.make c none = Buffer.make c (some 0)
    ∧ (¬ (0 < c ∧ 0 ≤ il.getD 0 ∧ il.getD 0 ≤ c) →
        Buffer.make c il = Except.error SimError.validationError) := by
  refine ⟨?_, ⟨?_, ?_⟩, rfl, ?_⟩
  · intro b hb
    unfold Buffer.make at hb
    split_ifs at hb with h1 h2
    have hb2 : BufferState.mk c (il.getD 0) [] [] = b := by
      simpa using hb
    cases hb2
    exact ⟨rfl, rfl, rfl, rfl⟩
  · rintro ⟨b, hb⟩
    unfold Buffer.make at hb
    split_ifs at hb with h1 h2
    push_neg at h1 h2
    exact ⟨h1, h2.1, h2.2⟩
  · rintro ⟨hc, hl0, hlc⟩
    refine ⟨⟨c, il.getD 0, [], []⟩, ?_⟩
    unfold Buffer.make
    rw [if_neg (not_le.mpr hc), if_neg (by simp [not_or, not_lt.mpr hl0, not_lt.mpr hlc])]
  · intro h
    unfold Buffer.make
    split_ifs with h1 h2
    · rfl
    · rfl
    · exfalso
      push_neg at h1 h2
      exact h ⟨h1, h2.1, h2.2⟩

/-- Witness for C10: a capacity-1000 buffer constructed with initial
level 250. -/
theorem buffer_constructor_validation_witness :
    (∀ b, Buffer.make 1000 (some 250) = Except.ok b →
        b.capacity = 1000 ∧ b.level = (some (250 : ℚ)).getD 0
        ∧ b.putQueue = [] ∧ b.getQueue = [])
    ∧ ((∃ b, Buffer.make 1000 (some 250) = Except.ok b) ↔
        0 < (1000 : ℚ) ∧ 0 ≤ (some (250 : ℚ)).getD 0
        ∧ (some (250 : ℚ)).getD 0 ≤ 1000)
    ∧ Buffer.make 1000 none = Buffer.make 1000 (some 0)
    ∧ (¬ (0 < (1000 : ℚ) ∧ 0 ≤ (some (250 : ℚ)).getD 0
          ∧ (some (250 : ℚ)).getD 0 ≤ 1000) →
        Buffer.make 1000 (some 250) = Except.error SimError.validationError) :=
  buffer_constructor_validation 1000 (some 250)

/-- C6: `put` and `get` validate `amount > 0`, and `put` of an amount
exceeding the capacity fails synchronously with `ValidationError` instead
of enqueueing the request. -/
theorem buffer_put_get_validation (b : BufferState) (rid : ℕ) (a : ℚ) :
    (a ≤ 0 → Buffer.put b rid a = Except.error SimError.validationError
      ∧ Buffer.get b rid a = Except.error SimError.validationError)
    ∧ (b.capacity < a → Buffer.put b rid a = Except.error SimError.validationError) := by
  constructor
  · intro h
    constructor
    · simp [Buffer.put, h]
    · simp [Buffer.get, h]
  · intro h
    by_cases h0 : a ≤ 0
    · simp [Buffer.put, h0]
    · simp [Buffer.put, h0, h]

/-- Witness for C6, on the documented deadlock scenario: a buffer of
capacity 100 at level 0 rejects `put(150)` immediately with
`ValidationError`. -/
theorem buffer_put_get_validation_witness :
    (100 : ℚ) < 150
    ∧ Buffer.put ⟨100, 0, [], []⟩ 0 150 = Except.error SimError.validationError :=
  ⟨by decide, (buffer_put_get_validation ⟨100, 0, [], []⟩ 0 150).2 (by decide)⟩

theorem matchGets_length_le (items : List ℕ) (gets : List GetRequest) :
    (matchGets items gets).1.length ≤ items.length := by
  induction gets generalizing items with
  | nil => simp [matchGets]
  | cons g gs ih =>
    simp only [matchGets]
    cases hf : items.find? g.test with
    | some x =>
      simp only
      exact le_trans (ih (items.erase x)) (List.erase_sublist x items).length_le
    | none => simpa using ih items

theorem matchGets_fulfilled (items : List ℕ) (gets : List GetRequest) :
    ∀ gx ∈ (matchGets items gets).2.2, gx.1.test gx.2 = true := by
  induction gets generalizing items with
  | nil => simp [matchGets]
  | cons g gs ih =>
    simp only [matchGets]
    cases hf : items.find? g.test with
    | some x =>
      simp only
      intro gx hgx
      rcases List.mem_cons.mp hgx with h | h
      · subst h
        exact List.find?_some hf
      · exact ih _ _ h
    | none =>
      simp only
      intro gx hgx
      exact ih _ _ hgx

theorem admitPuts_length_le (cap : ℕ) (items : List ℕ) (puts : List (ℕ × ℕ))
    (gets : List GetRequest) (h : items.length ≤ cap) :
    (admitPuts cap items puts gets).1.length ≤ cap := by
  induction puts generalizing items gets with
  | nil => simpa [admitPuts] using h
  | cons p ps ih =>
    simp only [admitPuts]
    by_cases hc : items.length < cap
    · simp only [hc, if_true]
      apply ih
      calc (matchGets (items ++ [p.2]) gets).1.length
          ≤ (items ++ [p.2]).length := matchGets_length_le _ _
        _ = items.length + 1 := by simp
        _ ≤ cap := hc
    · simpa [hc] using h

theorem admitPuts_fulfilled (cap : ℕ) (items : List ℕ) (puts : List (ℕ × ℕ))
    (gets : List GetRequest) :
    ∀ gx ∈ (admitPuts cap items puts gets).2.2.2, gx.1.test gx.2 = true := by
  induction puts generalizing items gets with
  | nil => simp [admitPuts]
  | cons p ps ih =>
    simp only [admitPuts]
    by_cases hc : items.length < cap
    · simp only [hc, if_true]
      intro gx hgx
      rcases List.mem_append.mp hgx with h | h
      · exact matchGets_fulfilled _ _ _ h
      · exact ih _ _ _ h
    · simp [hc]

theorem find?_split {l : List ℕ} {p : ℕ → Bool} {x : ℕ}
    (h : l.find? p = some x) :
    p x = true ∧ ∃ l1 l2, l = l1 ++ x :: l2 ∧ ∀ y ∈ l1, p y = false := by
  induction l with
  | nil => simp at h
  | cons a t ih =>
    by_cases ha : p a = true
    · rw [List.find?_cons_of_pos _ ha] at h
      simp at h
      subst h
      exact ⟨ha, [], t, rfl, by simp⟩
    · rw [List.find?_cons_of_neg _ ha] at h
      obtain ⟨hp, l1, l2, hl, hall⟩ := ih h
      refine ⟨hp, a :: l1, l2, by simp [hl], ?_⟩
      intro y hy
      rcases List.mem_cons.mp hy with hy | hy
      · subst hy
        exact Bool.eq_false_iff.mpr (fun he => ha he)
      · exact hall y hy

theorem store_reachable_items_le {s : StoreState} (h : StoreReachable s) :
    s.items.length ≤ s.capacity := by
  induction h with
  | init capacity hcap => simp
  | put s rid item _ ih =>
    unfold Store.put
    by_cases hc : s.items.length < s.capacity
    · simp only [hc, if_true]
      apply admitPuts_length_le
      calc (matchGets (s.items ++ [item]) s.getQueue).1.length
          ≤ (s.items ++ [item]).length := matchGets_length_le _ _
        _ = s.items.length + 1 := by simp
        _ ≤ s.capacity := hc
    · simpa [hc] using ih
  | get s rid pred _ ih =>
    unfold Store.get
    cases hf : s.items.find? (GetRequest.test ⟨rid, pred⟩) with
    | some x =>
      simp only
      apply admitPuts_length_le
      exact le_trans (List.erase_sublist x s.items).length_le ih
    | none => simpa using ih

/-- C7: in every reachable `Store` state the number of stored items is at
most the capacity, and every resolved `get` yields an item its predicate
accepts — the first matching item in insertion order, the first stored
item when no predicate is given — including the queued requests fulfilled
by a `put` or freed space. -/
theorem store_capacity_and_get_predicate (s : StoreState) :
    (StoreReachable s → s.items.length ≤ s.capacity)
    ∧ (∀ rid pred x, (Store.get s rid pred).2.1 = some x →
        GetRequest.test ⟨rid, pred⟩ x = true
        ∧ ∃ l1 l2, s.items = l1 ++ x :: l2
            ∧ ∀ y ∈ l1, GetRequest.test ⟨rid, pred⟩ y = false)
    ∧ (∀ rid, s.items ≠ [] → (Store.get s rid none).2.1 = s.items.head?)
    ∧ (∀ rid item, ∀ gx ∈ (Store.put s rid item).2, gx.1.test gx.2 = true)
    ∧ (∀ rid pred, ∀ gx ∈ (Store.get s rid pred).2.2, gx.1.test gx.2 = true) := by
  refine ⟨fun h => store_reachable_items_le h, ?_, ?_, ?_, ?_⟩
  · intro rid pred x hx
    unfold Store.get at hx
    cases hf : s.items.find? (GetRequest.test ⟨rid, pred⟩) with
    | some y =>
      rw [hf] at hx
      simp at hx
      subst hx
      exact find?_split hf
    | none =>
      rw [hf] at hx
      simp at hx
  · intro rid hne
    cases hi : s.items with
    | nil => exact absurd hi hne
    | cons a t =>
      unfold Store.get
      rw [hi]
      rw [List.find?_cons_of_pos _ (by simp [GetRequest.test])]
      rfl
  · intro rid item gx hgx
    unfold Store.put at hgx
    by_cases hc : s.items.length < s.capacity
    · simp only [hc, if_true] at hgx
      rcases List.mem_append.mp hgx with h | h
      · exact matchGets_fulfilled _ _ _ h
      · exact admitPuts_fulfilled _ _ _ _ _ h
    · simp [hc] at hgx
  · intro rid pred gx hgx
    unfold Store.get at hgx
    cases hf : s.items.find? (GetRequest.test ⟨rid, pred⟩) with
    | some y =>
      rw [hf] at hgx
      exact admitPuts_fulfilled _ _ _ _ _ hgx
    | none =>
      rw [hf] at hgx
      simp at hgx

/-- Witness for C7: the store holding items 2, 7, 4 at capacity 5. -/
theorem store_capacity_and_get_predicate_witness :
    (StoreReachable ⟨5, [2, 7, 4], [], []⟩ → ([2, 7, 4] : List ℕ).length ≤ 5)
    ∧ (∀ rid pred x, (Store.get ⟨5, [2, 7, 4], [], []⟩ rid pred).2.1 = some x →
        GetRequest.test ⟨rid, pred⟩ x = true
        ∧ ∃ l1 l2, ([2, 7, 4] : List ℕ) = l1 ++ x :: l2
            ∧ ∀ y ∈ l1, GetRequest.test ⟨rid, pred⟩ y = false)
    ∧ (∀ rid, ([2, 7, 4] : List ℕ) ≠ [] →
        (Store.get ⟨5, [2, 7, 4], [], []⟩ rid none).2.1 = ([2, 7, 4] : List ℕ).head?)
    ∧ (∀ rid item, ∀ gx ∈ (Store.put ⟨5, [2, 7, 4], [], []⟩ rid item).2,
        gx.1.test gx.2 = true)
    ∧ (∀ rid pred, ∀ gx ∈ (Store.get ⟨5, [2, 7, 4], [], []⟩ rid pred).2.2,
        gx.1.test gx.2 = true) :=
  store_capacity_and_get_predicate ⟨5, [2, 7, 4], [], []⟩

theorem waitForAux_ok (pred : ℕ → Bool) (interval : ℚ) :
    ∀ rem chk i, chk < i → i ≤ chk + rem → pred i = true →
      (∀ j, j < i → chk < j → pred j = false) →
      waitForAux pred interval chk rem = Except.ok ((i : ℚ) * interval) := by
  intro rem
  induction rem with
  | zero =>
    intro chk i h1 h2 _ _
    omega
  | succ n ih =>
    intro chk i h1 h2 h3 h4
    simp only [waitForAux]
    by_cases hp : pred (chk + 1) = true
    · rw [if_pos hp]
      have hieq : i = chk + 1 := by
        by_contra hne
        have hlt : chk + 1 < i := by omega
        have := h4 (chk + 1) hlt (by omega)
        rw [this] at hp
        exact absurd hp (by simp)
      subst hieq
      push_cast
      rfl
    · rw [if_neg hp]
      apply ih (chk + 1) i
      · have : i ≠ chk + 1 := fun he => hp (he ▸ h3)
        omega
      · omega
      · exact h3
      · intro j hj1 hj2
        exact h4 j hj1 (by omega)

theorem waitForAux_timeout (pred : ℕ → Bool) (interval : ℚ) :
    ∀ rem chk, (∀ j, chk < j → j ≤ chk + rem → pred j = false) →
      waitForAux pred interval chk rem
        = Except.error SimError.conditionTimeoutError := by
  intro rem
  induction rem with
  | zero =>
    intro chk _
    simp [waitForAux]
  | succ n ih =>
    intro chk h
    simp only [waitForAux]
    rw [if_neg (by simp [h (chk + 1) (by omega) (by omega)])]
    apply ih
    intro j hj1 hj2
    exact h j (by omega) (by omega)

/-- C8: `waitFor(predicate, {interval, maxIterations})` (interval
defaulting to 1) polls the predicate every `interval` simulation-time
units; it resumes normally at the first check where the predicate holds,
and if `maxIterations` checks elapse with the predicate never true it
fails with `ConditionTimeoutError`. -/
theorem waitFor_first_true_or_timeout (pred : ℕ → Bool) (interval : Option ℚ)
    (maxIter : ℕ) :
    (∀ i, 1 ≤ i → i ≤ maxIter → pred i = true →
        (∀ j, j < i → 1 ≤ j → pred j = false) →
        waitFor pred interval maxIter = Except.ok ((i : ℚ) * interval.getD 1))
    ∧ ((∀ j, j ≤ maxIter → 1 ≤ j → pred j = false) →
        waitFor pred interval maxIter
          = Except.error SimError.conditionTimeoutError) := by
  constructor
  · intro i h1 h2 h3 h4
    exact waitForAux_ok pred (interval.getD 1) maxIter 0 i (by omega) (by omega) h3
      (fun j hj1 hj2 => h4 j hj1 (by omega))
  · intro h
    exact waitForAux_timeout pred (interval.getD 1) maxIter 0
      (fun j hj1 hj2 => h j (by omega) (by omega))

/-- Witness for C8: the predicate first true at the third check, polled
every 2 time units with a budget of 50 checks, resumes at elapsed time
`3 * 2`; a predicate never true inside a 4-check budget times out. -/
theorem waitFor_first_true_or_timeout_witness :
    ((fun n => decide (3 ≤ n)) 3 = true
      ∧ (∀ j, j < 3 → 1 ≤ j → (fun n => decide (3 ≤ n)) j = false)
      ∧ waitFor (fun n => decide (3 ≤ n)) (some 2) 50
          = Except.ok ((3 : ℚ) * (some (2 : ℚ)).getD 1))
    ∧ ((∀ j, j ≤ 4 → 1 ≤ j → (fun _ => false) j = false)
      ∧ waitFor (fun _ => false) none 4
          = Except.error SimError.conditionTimeoutError) :=
  ⟨⟨by decide, by decide,
      (waitFor_first_true_or_timeout (fun n => decide (3 ≤ n)) (some 2) 50).1 3
        (by decide) (by decide) (by decide) (by decide)⟩,
    ⟨by decide,
      (waitFor_first_true_or_timeout (fun _ => false) none 4).2 (by decide)⟩⟩

theorem find?_map_cancel (l : List (ℕ × ProcState)) (pid : ℕ) :
    (l.map (fun q => if q.1 == pid then (q.1, ProcState.cancelled) else q)).find?
        (fun q => q.1 == pid)
      = (l.find? (fun q => q.1 == pid)).map
          (fun q => (q.1, ProcState.cancelled)) := by
  induction l with
  | nil => simp
  | cons a t ih =>
    by_cases ha : (a.1 == pid) = true
    · simp [List.find?, ha]
    · have hfa : (a.1 == pid) = false := by simpa using ha
      rw [List.map_cons, if_neg ha]
      simp only [List.find?, hfa]
      exact ih

theorem isAlive_cancel (m : ProcSim) (pid : ℕ) :
    Process.isAlive (Process.cancel m pid) pid = false := by
  by_cases h : Process.isAlive m pid
  · rw [Process.cancel, if_pos h]
    unfold Process.isAlive stateOf
    simp only [find?_map_cancel]
    cases hf : m.procs.find? (fun q => q.1 == pid) with
    | none => simp
    | some q => simp
  · rw [Process.cancel, if_neg h]
    simpa using h

/-- C9: `cancel()` on a process that is already Completed or Cancelled is
a no-op leaving the simulation state unchanged; `cancel` is idempotent,
and after any `cancel` the process is no longer alive. -/
theorem cancel_on_dead_noop_idempotent (m : ProcSim) (pid : ℕ) :
    (Process.isAlive m pid = false → Process.cancel m pid = m)
    ∧ Process.cancel (Process.cancel m pid) pid = Process.cancel m pid
    ∧ Process.isAlive (Process.cancel m pid) pid = false := by
  have hdead : ∀ m2 : ProcSim, Process.isAlive m2 pid = false →
      Process.cancel m2 pid = m2 := by
    intro m2 h2
    rw [Process.cancel, if_neg (by simp [h2])]
  exact ⟨hdead m, hdead _ (isAlive_cancel m pid), isAlive_cancel m pid⟩

/-- Witness for C9: cancelling a completed process is a no-op, twice gives
the same state, and it stays dead. -/
theorem cancel_on_dead_noop_idempotent_witness :
    Process.isAlive ⟨[(1, ProcState.completed)], []⟩ 1 = false
    ∧ Process.cancel ⟨[(1, ProcState.completed)], []⟩ 1
        = ⟨[(1, ProcState.completed)], []⟩
    ∧ Process.cancel (Process.cancel ⟨[(1, ProcState.completed)], []⟩ 1) 1
        = Process.cancel ⟨[(1, ProcState.completed)], []⟩ 1
    ∧ Process.isAlive (Process.cancel ⟨[(1, ProcState.completed)], []⟩ 1) 1 = false :=
  ⟨by decide,
    (cancel_on_dead_noop_idempotent ⟨[(1, ProcState.completed)], []⟩ 1).1 (by decide),
    (cancel_on_dead_noop_idempotent ⟨[(1, ProcState.completed)], []⟩ 1).2.1,
    (cancel_on_dead_noop_idempotent ⟨[(1, ProcState.completed)], []⟩ 1).2.2⟩

end DiscreteSim
